import Mathlib

/-!
Shallow embedding of the clip-sens analyzer core
(`src/analyzer/comment_analyzer.py`, `src/analyzer/subtitle_analyzer.py`,
`src/analyzer/clip_generator.py`).

Timestamps and scores are modelled as exact rationals (`ℚ`); the source's
floats only ever carry values on which the relevant arithmetic is exact.
Counts are `ℕ` (they come from `groupby(...).size()` / list lengths).
Regex matching (`re.search` / `Series.str.contains`) is abstracted as a
total matcher function `String → String → Bool`; the analyzers are
parametric in it exactly where the source calls the regex engine.
-/

/-- A parsed chat row (`timestamp_sec`, `author`, `message` columns of the
chat DataFrame).  `message` is `Option String`: `none` models a missing
(NaN) message cell. -/
structure ChatRecord where
  timestamp_sec : ℚ
  author : String
  message : Option String
deriving Repr, DecidableEq

/-- One row of the DataFrame returned by `bin_comments_by_time`
(columns `bin_start`, `bin_end`, `count`, `comment_rate`). -/
structure TimeBin where
  bin_start : ℚ
  bin_end : ℚ
  count : ℕ
  comment_rate : ℚ
deriving Repr, DecidableEq

/-- One element of the list returned by `find_peaks`
(keys `time`, `time_end`, `count`, `comment_rate`, `percentile`). -/
structure Peak where
  time : ℚ
  time_end : ℚ
  count : ℕ
  comment_rate : ℚ
  percentile : ℚ
deriving Repr, DecidableEq

/-- `np.arange(a, stop, step)`: the points `a + k*step` for
`0 ≤ k < ⌈(stop - a)/step⌉` (the numpy element-count formula). -/
def arangeQ (a stop step : ℚ) : List ℚ :=
  (List.range (⌈(stop - a) / step⌉).toNat).map
    (fun (k : ℕ) => a + (k : ℚ) * step)

/-- `np.searchsorted(edges, t, side='left')` for a sorted `edges`:
the number of edges strictly below `t`. -/
def searchsortedLeft (edges : List ℚ) (t : ℚ) : ℕ :=
  (edges.filter (fun e => e < t)).length

/-- The bin label `pd.cut(x, bins=edges, labels=False, include_lowest=True)`
assigns to a value `t` (default `right=True`).  Mirrors pandas
`_bins_to_cuts`: `ids = searchsorted(edges, t, side='left')`, then
`include_lowest` forces `ids = 1` when `t` equals the first edge, and the
value is NaN (`none`) when `ids` is `0` or `len(edges)`.  In particular a
single-edge `edges` labels every value `none`. -/
def cutLabel (edges : List ℚ) (t : ℚ) : Option ℕ :=
  let ids := if edges ≠ [] ∧ t = edges.getD 0 0 then 1 else searchsortedLeft edges t
  if ids = 0 ∨ ids = edges.length then none else some (ids - 1)

/-- `Series.min()` over a nonempty column (0 simply pads the empty case,
which every caller guards). -/
def colMin : List ℚ → ℚ
  | [] => 0
  | a :: r => r.foldl min a

/-- `Series.max()`. -/
def colMax : List ℚ → ℚ
  | [] => 0
  | a :: r => r.foldl max a

/-- The bin-edge array `bin_comments_by_time` builds:
`np.arange(np.floor(min_time), np.ceil(max_time) + bin_size, bin_size)`. -/
def binEdges (records : List ChatRecord) (bin_size_seconds : ℤ) : List ℚ :=
  let ts := records.map (·.timestamp_sec)
  arangeQ (⌊colMin ts⌋ : ℚ) ((⌈colMax ts⌉ : ℚ) + (bin_size_seconds : ℚ))
    (bin_size_seconds : ℚ)

/-- `CommentAnalyzer.bin_comments_by_time`: empty input yields an empty
frame; otherwise each record is labelled by `pd.cut` over `binEdges`,
labels are grouped (ascending, NaN dropped — exactly `groupby('bin')`),
each group reports `bin_start = bins[label]`, `bin_end = bins[label+1]`,
its size, and `count / bin_size_seconds`; the trailing
`sort_values('bin_start')` is a no-op on the already ascending labels. -/
def bin_comments_by_time (records : List ChatRecord)
    (bin_size_seconds : ℤ) : List TimeBin :=
  match records with
  | [] => []
  | _ =>
    let edges := binEdges records bin_size_seconds
    (List.range (edges.length - 1)).filterMap (fun j =>
      let c := (records.filter
        (fun r => cutLabel edges r.timestamp_sec = some j)).length
      if c = 0 then none
      else some ⟨edges.getD j 0, edges.getD (j + 1) 0, c,
        (c : ℚ) / (bin_size_seconds : ℚ)⟩)

/-- `np.percentile(xs, q)` with the default linear interpolation between
closest ranks: `h = (n-1)*q/100`, result `s[⌊h⌋] + (h-⌊h⌋)*(s[⌊h⌋+1]-s[⌊h⌋])`
on the ascending sort `s` of `xs`. -/
def npPercentile (xs : List ℚ) (q : ℚ) : ℚ :=
  let s := xs.insertionSort (· ≤ ·)
  let n := s.length
  let h := ((n : ℚ) - 1) * q / 100
  let i := (⌊h⌋).toNat
  s.getD i 0 + (h - (⌊h⌋ : ℚ)) * (s.getD (i + 1) (s.getD i 0) - s.getD i 0)

/-- Python `max(group, key=lambda x: x['count'])`: the first element of
maximal count (later elements replace the champion only when strictly
greater). -/
def pyMaxByCount (a : TimeBin) (l : List TimeBin) : TimeBin :=
  l.foldl (fun acc x => if x.count > acc.count then x else acc) a

/-- `CommentAnalyzer._merge_peak_group`: collapse a (nonempty) group to the
row of maximal count; `percentile` is left at 0 as in the source. -/
def merge_peak_group : List TimeBin → Peak
  | [] => ⟨0, 0, 0, 0, 0⟩
  | a :: l =>
    let max_row := pyMaxByCount a l
    ⟨max_row.bin_start, max_row.bin_end, max_row.count,
      max_row.comment_rate, 0⟩

/-- The grouping loop of `find_peaks`: a row joins the current (nonempty)
group when `row.bin_start - current_group[-1].bin_end ≤ min_gap_seconds`,
otherwise the group closes and a new one starts. -/
def peakGroupLoop (min_gap_seconds : ℚ) (cur : List TimeBin) :
    List TimeBin → List (List TimeBin)
  | [] => [cur]
  | row :: rest =>
    if row.bin_start - ((cur.getLast?).map (·.bin_end)).getD 0
        ≤ min_gap_seconds then
      peakGroupLoop min_gap_seconds (cur ++ [row]) rest
    else
      cur :: peakGroupLoop min_gap_seconds [row] rest

/-- `CommentAnalyzer.find_peaks`. -/
def find_peaks (binned : List TimeBin) (threshold_percentile : ℚ)
    (min_gap_seconds : ℚ) : List Peak :=
  match binned with
  | [] => []
  | _ =>
    let threshold := npPercentile (binned.map (fun b => (b.count : ℚ)))
      threshold_percentile
    match binned.filter (fun b => threshold ≤ (b.count : ℚ)) with
    | [] => []
    | p :: ps => (peakGroupLoop min_gap_seconds [p] ps).map merge_peak_group

/-- One row of `count_keywords`'s output frame
(columns `keyword`, `timestamp_sec`, `message`). -/
structure KeywordRow where
  keyword : String
  timestamp_sec : ℚ
  message : String
deriving Repr, DecidableEq

/-- `CommentAnalyzer.count_keywords`, parametric in the regex engine
`matcher` (`matcher pattern text` stands for
`re.compile(pattern, flags)` being found in `text`).  For each keyword in
order, the rows whose `message` matches are kept in record order;
`str.contains(pattern, na=False)` makes a missing (`none`) message match
nothing.  The per-keyword frames are concatenated (`pd.concat`), and an
all-empty result is the empty frame. -/
def count_keywords (matcher : String → String → Bool)
    (records : List ChatRecord) (keywords : List String) : List KeywordRow :=
  (keywords.map (fun keyword =>
    records.filterMap (fun r =>
      match r.message with
      | none => none
      | some msg =>
        if matcher keyword msg then some ⟨keyword, r.timestamp_sec, msg⟩
        else none))).flatten

/-- One row of `get_keyword_frequency_over_time`'s output
(columns `bin_start`, `bin_end`, `keyword`, `count`). -/
structure KeywordBin where
  bin_start : ℚ
  bin_end : ℚ
  keyword : String
  count : ℕ
deriving Repr, DecidableEq

/-- Python `<` on strings (code-point lexicographic), as a Bool. -/
def strLt (a b : String) : Bool := compare a b = Ordering.lt

/-- `CommentAnalyzer.get_keyword_frequency_over_time`: keyword matches are
binned with the same `pd.cut` edges, computed over the *full* chat frame's
time range, then grouped by `(bin, keyword)`; `groupby` sorts its keys
ascending (label, then keyword), which the final
`sort_values(['bin_start', 'keyword'])` preserves. -/
def get_keyword_frequency_over_time (matcher : String → String → Bool)
    (records : List ChatRecord) (keywords : List String)
    (bin_size_seconds : ℤ) : List KeywordBin :=
  let keyword_rows := count_keywords matcher records keywords
  match keyword_rows with
  | [] => []
  | _ =>
    let edges := binEdges records bin_size_seconds
    let labelled := keyword_rows.filterMap (fun row =>
      (cutLabel edges row.timestamp_sec).map (fun j => (j, row.keyword)))
    let keys := (labelled.eraseDups).insertionSort
      (fun p q => p.1 < q.1 ∨ (p.1 = q.1 ∧ ¬ strLt q.2 p.2))
    keys.map (fun p =>
      ⟨edges.getD p.1 0, edges.getD (p.1 + 1) 0, p.2,
        (labelled.filter (fun q => q = p)).length⟩)

/-- A parsed subtitle row (`start`, `end`, `text` columns; the unused
`duration` column is omitted).  `end` is a Lean keyword, hence `endTime`. -/
structure SubtitleRecord where
  start : ℚ
  endTime : ℚ
  text : String
deriving Repr, DecidableEq

/-- One element of `detect_silence_gaps`'s result. -/
structure SilenceGap where
  gap_start : ℚ
  gap_end : ℚ
  gap_duration : ℚ
deriving Repr, DecidableEq

/-- One element of `segment_by_silence`'s result. -/
structure Segment where
  segment_id : ℕ
  start : ℚ
  endTime : ℚ
  duration : ℚ
  subtitle_count : ℕ
  text : String
deriving Repr, DecidableEq

/-- One element of `detect_topic_changes`'s result. -/
structure TopicChange where
  time : ℚ
  keyword : String
  text : String
deriving Repr, DecidableEq

/-- `SubtitleAnalyzer.detect_silence_gaps`: for each adjacent pair, a gap
is recorded when `next.start - current.end ≥ min_gap_seconds`; fewer than
two subtitles yield no gaps. -/
def detect_silence_gaps (subs : List SubtitleRecord)
    (min_gap_seconds : ℚ) : List SilenceGap :=
  if subs.length < 2 then []
  else
    (subs.zip subs.tail).filterMap (fun p =>
      let gap_duration := p.2.start - p.1.endTime
      if min_gap_seconds ≤ gap_duration then
        some ⟨p.1.endTime, p.2.start, gap_duration⟩
      else none)

/-- The accumulation loop of `segment_by_silence`: subtitles join the
running segment; the segment closes right after a subtitle whose end lies
within 0.1 of a detected gap start, or at the last subtitle, and is kept
only when its duration reaches `min_segment_duration`. -/
def segmentLoop (gaps : List SilenceGap) (min_segment_duration : ℚ)
    (segment_start : ℚ) (cur_subs : List SubtitleRecord)
    (acc : List Segment) : List SubtitleRecord → List Segment
  | [] => acc
  | row :: rest =>
    let cur_subs := cur_subs ++ [row]
    let has_gap := gaps.any (fun g => |g.gap_start - row.endTime| < 1/10)
    if has_gap ∨ rest = [] then
      let acc :=
        if min_segment_duration ≤ row.endTime - segment_start then
          acc ++ [⟨acc.length, segment_start, row.endTime,
            row.endTime - segment_start, cur_subs.length,
            " ".intercalate (cur_subs.map (·.text))⟩]
        else acc
      match rest with
      | [] => acc
      | next :: _ => segmentLoop gaps min_segment_duration next.start [] acc rest
    else
      segmentLoop gaps min_segment_duration segment_start cur_subs acc rest

/-- `SubtitleAnalyzer.segment_by_silence`. -/
def segment_by_silence (subs : List SubtitleRecord)
    (min_gap_seconds min_segment_duration : ℚ) : List Segment :=
  match subs with
  | [] => []
  | first :: _ =>
    segmentLoop (detect_silence_gaps subs min_gap_seconds)
      min_segment_duration first.start [] [] subs

/-- The default `keywords` of `detect_topic_changes`. -/
def defaultTopicKeywords : List String :=
  ["次は", "それでは", "続いて", "さて", "ここから", "これから", "まず", "最後に"]

/-- `SubtitleAnalyzer.detect_topic_changes`: for each subtitle in order,
the first matching keyword (if any) yields one TopicChange; the inner
`break` stops after the first match. -/
def detect_topic_changes (matcher : String → String → Bool)
    (subs : List SubtitleRecord) (keywords : List String) :
    List TopicChange :=
  subs.filterMap (fun row =>
    (keywords.find? (fun keyword => matcher keyword row.text)).map
      (fun keyword => ⟨row.start, keyword, row.text⟩))

/-- The `details` payload attached to a candidate by its producer.  The
four dict shapes in the source have disjoint keys, so the `'peak_count'`
/ `'total_count'` membership probes of `_calculate_score` become pattern
matches. -/
inductive CandidateDetails where
  | peakD (peak_count : ℕ) (peak_time : ℚ)
  | keywordD (total_count : ℕ)
  | segmentD (segment_id : ℕ) (subtitle_count : ℕ) (text_preview : String)
  | topicD (keyword : String) (text : String)
deriving Repr, DecidableEq

/-- A candidate as first produced (keys `start`, `end`, `reason`,
`score`, `details`). -/
structure Candidate where
  start : ℚ
  endTime : ℚ
  reason : String
  score : ℚ
  details : CandidateDetails
deriving Repr, DecidableEq

/-- A candidate inside / after the merge pass, which adds the `reasons`
and `all_details` keys to a copy of the dict. -/
structure MergedCandidate where
  start : ℚ
  endTime : ℚ
  reason : String
  score : ℚ
  details : CandidateDetails
  reasons : List String
  all_details : List CandidateDetails
deriving Repr, DecidableEq

/-- `ClipGenerator._generate_from_comment_peaks`: 10-second bins, peaks at
the 75th percentile with 30s minimum gap; each peak yields the interval
`[max(0, time-15), min(time_end+30, time+60)]`, kept when its duration is
within `[min_duration, max_duration]`. -/
def generate_from_comment_peaks (records : List ChatRecord)
    (min_duration max_duration : ℚ) : List Candidate :=
  let binned := bin_comments_by_time records 10
  let peaks := find_peaks binned 75 30
  peaks.filterMap (fun peak =>
    let start := max 0 (peak.time - 15)
    let endT := min (peak.time_end + 30) (peak.time + 60)
    let duration := endT - start
    if min_duration ≤ duration ∧ duration ≤ max_duration then
      some ⟨start, endT, "コメント急増", 0,
        .peakD peak.count peak.time⟩
    else none)

/-- One row of the `groupby(['bin_start','bin_end']).sum()` frame in
`_generate_from_keywords` (only the summed `count` is used downstream). -/
structure SummedBin where
  bin_start : ℚ
  bin_end : ℚ
  count : ℕ
deriving Repr, DecidableEq

/-- `ClipGenerator._create_candidate_from_group`: pad the group span by 10s
each side (clamped at 0 on the left) and keep it when the padded duration
is within bounds; `total_count` sums the member bins' counts. -/
def create_candidate_from_group (group : List SummedBin) (reason : String)
    (min_duration max_duration : ℚ) : Option Candidate :=
  match group with
  | [] => none
  | first :: _ =>
    let start := max 0 (first.bin_start - 10)
    let endT := (group.getLastD first).bin_end + 10
    let duration := endT - start
    if min_duration ≤ duration ∧ duration ≤ max_duration then
      some ⟨start, endT, reason, 0,
        .keywordD (group.map (·.count)).sum⟩
    else none

/-- The consecutive-bin grouping loop of `_generate_from_keywords`: a bin
joins the current group when `bin_start - current_group[-1].bin_end ≤ 20`. -/
def keywordGroupLoop (cur : List SummedBin) :
    List SummedBin → List (List SummedBin)
  | [] => [cur]
  | row :: rest =>
    if row.bin_start - ((cur.getLast?).map (·.bin_end)).getD 0 ≤ 20 then
      keywordGroupLoop (cur ++ [row]) rest
    else
      cur :: keywordGroupLoop [row] rest

/-- `ClipGenerator._generate_from_keywords`: keyword frequencies at 10s
bins are summed per bin (`groupby(['bin_start','bin_end']).sum()`, keys
ascending), thresholded at the 0.75 quantile of the summed counts
(`Series.quantile` interpolates linearly, like `np.percentile(., 75)`),
grouped with a 20s gap rule, and each group becomes a padded candidate. -/
def generate_from_keywords (matcher : String → String → Bool)
    (records : List ChatRecord) (keywords : List String)
    (min_duration max_duration : ℚ) : List Candidate :=
  let keyword_freq := get_keyword_frequency_over_time matcher records keywords 10
  match keyword_freq with
  | [] => []
  | _ =>
    let starts := (keyword_freq.map (fun r => (r.bin_start, r.bin_end))).eraseDups
    let summed := (starts.insertionSort (fun p q => p.1 ≤ q.1)).map (fun p =>
      SummedBin.mk p.1 p.2
        ((keyword_freq.filter
          (fun r => r.bin_start = p.1 ∧ r.bin_end = p.2)).map (·.count)).sum)
    let threshold := npPercentile (summed.map (fun r => (r.count : ℚ))) 75
    match summed.filter (fun r => threshold ≤ (r.count : ℚ)) with
    | [] => []
    | b :: bs =>
      (keywordGroupLoop [b] bs).filterMap (fun group =>
        create_candidate_from_group group "キーワード多発"
          min_duration max_duration)

/-- `ClipGenerator._generate_from_subtitle_segments`: silence segments with
a 2.0s gap threshold and `min_segment_duration = min_duration`; each
segment within the duration bounds becomes a candidate, with a 100-char
text preview in its details. -/
def generate_from_subtitle_segments (subs : List SubtitleRecord)
    (min_duration max_duration : ℚ) : List Candidate :=
  let segments := segment_by_silence subs 2 min_duration
  segments.filterMap (fun segment =>
    if min_duration ≤ segment.duration ∧ segment.duration ≤ max_duration then
      some ⟨segment.start, segment.endTime, "字幕セグメント", 0,
        .segmentD segment.segment_id segment.subtitle_count
          (if segment.text.length > 100 then segment.text.take 100 ++ "..."
           else segment.text)⟩
    else none)

/-- `ClipGenerator._generate_from_topic_changes`: each detected change
spans to the next change's time (or 60s past itself when last), filtered
by the duration bounds. -/
def generate_from_topic_changes (matcher : String → String → Bool)
    (subs : List SubtitleRecord) (min_duration max_duration : ℚ) :
    List Candidate :=
  let topic_changes := detect_topic_changes matcher subs defaultTopicKeywords
  (List.range topic_changes.length).filterMap (fun i =>
    match topic_changes.get? i with
    | none => none
    | some change =>
      let start := change.time
      let endT := match topic_changes.get? (i + 1) with
        | some next => next.time
        | none => start + 60
      let duration := endT - start
      if min_duration ≤ duration ∧ duration ≤ max_duration then
        some ⟨start, endT, "話題転換: " ++ change.keyword, 0,
          .topicD change.keyword change.text⟩
      else none)

/-- `ClipGenerator._calculate_overlap` on the two intervals' bounds:
`0.0` when they do not properly overlap, else the overlap duration over
the shorter of the two durations. -/
def calculate_overlap (s1 e1 s2 e2 : ℚ) : ℚ :=
  let overlap_start := max s1 s2
  let overlap_end := min e1 e2
  if overlap_end ≤ overlap_start then 0
  else (overlap_end - overlap_start) / min (e1 - s1) (e2 - s2)

/-- `ClipGenerator._calculate_score`: `min(len(reasons)*0.3, 0.6)`, plus
`min(peak_count/100, 0.3)` per peak detail and `min(total_count/50, 0.2)`
per keyword detail, clamped to 1.0. -/
def calculate_score (candidate : MergedCandidate) : ℚ :=
  let base := min ((candidate.reasons.length : ℚ) * (3/10)) (6/10)
  let score := candidate.all_details.foldl (fun score details =>
    match details with
    | .peakD peak_count _ => score + min ((peak_count : ℚ) / 100) (3/10)
    | .keywordD total_count => score + min ((total_count : ℚ) / 50) (1/5)
    | _ => score) base
  min score 1

/-- `candidate.copy()` plus `reasons = [reason]`, `all_details = [details]`:
the accumulator the merge pass starts from a candidate. -/
def initMerged (c : Candidate) : MergedCandidate :=
  ⟨c.start, c.endTime, c.reason, c.score, c.details, [c.reason], [c.details]⟩

/-- Finalizing the accumulator: `current['score'] = _calculate_score(current)`. -/
def finalizeMerged (c : MergedCandidate) : MergedCandidate :=
  { c with score := calculate_score c }

/-- The left-to-right sweep of `_merge_and_score_candidates`: merge the
next candidate into the accumulator when the overlap ratio exceeds 0.5,
otherwise finalize the accumulator and restart from the next candidate;
the last accumulator is always finalized. -/
def mergeLoop (current : MergedCandidate) :
    List Candidate → List MergedCandidate
  | [] => [finalizeMerged current]
  | candidate :: rest =>
    if calculate_overlap current.start current.endTime
        candidate.start candidate.endTime > 1/2 then
      mergeLoop { current with
        start := min current.start candidate.start,
        endTime := max current.endTime candidate.endTime,
        reasons := current.reasons ++ [candidate.reason],
        all_details := current.all_details ++ [candidate.details] } rest
    else
      finalizeMerged current :: mergeLoop (initMerged candidate) rest

/-- `ClipGenerator._merge_and_score_candidates`: sort by start (stable),
sweep-merge and score, then keep the merged candidates whose duration is
within bounds, rewriting `reason` to the joined de-duplicated reasons.
(CPython joins `set(reasons)` in unspecified hash order; the join order
is modelled as first occurrence, which no verified claim depends on.) -/
def merge_and_score_candidates (candidates : List Candidate)
    (min_duration max_duration : ℚ) : List MergedCandidate :=
  match candidates.insertionSort (fun a b => a.start ≤ b.start) with
  | [] => []
  | first :: rest =>
    (mergeLoop (initMerged first) rest).filterMap (fun candidate =>
      let duration := candidate.endTime - candidate.start
      if min_duration ≤ duration ∧ duration ≤ max_duration then
        some { candidate with
          reason := ", ".intercalate candidate.reasons.eraseDups }
      else none)

/-- The default `reaction_keywords` of `generate_candidates`. -/
def defaultReactionKeywords : List String :=
  ["w+", "草", "笑", "！+", "？+", "すごい", "やばい"]

/-- `ClipGenerator.generate_candidates`: the four producers run when their
analyzer is present (`none` models an absent analyzer, `some records` an
analyzer over those records), results are concatenated, merged, scored,
duration-filtered, and stably sorted by descending score. -/
def generate_candidates (matcher : String → String → Bool)
    (comment_records : Option (List ChatRecord))
    (subtitle_records : Option (List SubtitleRecord))
    (min_duration max_duration : ℚ) (reaction_keywords : List String) :
    List MergedCandidate :=
  let c1 := match comment_records with
    | none => []
    | some records => generate_from_comment_peaks records min_duration max_duration
  let c2 := match comment_records with
    | none => []
    | some records =>
        generate_from_keywords matcher records reaction_keywords
          min_duration max_duration
  let c3 := match subtitle_records with
    | none => []
    | some subs => generate_from_subtitle_segments subs min_duration max_duration
  let c4 := match subtitle_records with
    | none => []
    | some subs => generate_from_topic_changes matcher subs min_duration max_duration
  let merged := merge_and_score_candidates (c1 ++ c2 ++ c3 ++ c4)
    min_duration max_duration
  merged.insertionSort (fun a b => b.score ≤ a.score)

/-!
A small object-store model for the aliasing claims about the analyzer
constructors.  Python DataFrames are heap objects passed by reference:
`Store α := List α` is the heap, an object is an index, `__init__`'s
`df.copy()` allocates a fresh object holding the same value, and an
in-place column write (`self.chat_df['bin'] = ...`) updates the object
the analyzer holds.
-/

/-- A chat DataFrame object: its rows plus the optional working `bin`
column that `bin_comments_by_time` writes (`none` until written; each
cell holds the record's `pd.cut` label, NaN as `none`). -/
structure ChatDF where
  rows : List ChatRecord
  bin_col : Option (List (Option ℕ))
deriving Repr, DecidableEq

/-- A subtitle DataFrame object (no analyzer method writes to it). -/
structure SubtitleDF where
  rows : List SubtitleRecord
deriving Repr, DecidableEq

/-- `CommentAnalyzer.__init__(chat_df)`: `self.chat_df = chat_df.copy()`
allocates a fresh object with the caller's value; returns the updated
heap and the analyzer's object. -/
def commentAnalyzerInit (heap : List ChatDF) (chat_df : ℕ) :
    List ChatDF × ℕ :=
  (heap ++ [heap.getD chat_df ⟨[], none⟩], heap.length)

/-- `SubtitleAnalyzer.__init__(subtitle_df)`: likewise stores a copy. -/
def subtitleAnalyzerInit (heap : List SubtitleDF) (subtitle_df : ℕ) :
    List SubtitleDF × ℕ :=
  (heap ++ [heap.getD subtitle_df ⟨[]⟩], heap.length)

/-- `bin_comments_by_time` as a heap operation: on a non-empty frame it
writes the `bin` column into the analyzer's own object
(`self.chat_df['bin'] = pd.cut(...)`) before aggregating; the empty
frame returns early without writing. -/
def binCommentsByTimeStep (heap : List ChatDF) (self_chat_df : ℕ)
    (bin_size_seconds : ℤ) : List ChatDF × List TimeBin :=
  let df := heap.getD self_chat_df ⟨[], none⟩
  match df.rows with
  | [] => (heap, [])
  | _ =>
    let edges := binEdges df.rows bin_size_seconds
    (heap.set self_chat_df
      ⟨df.rows, some (df.rows.map (fun r => cutLabel edges r.timestamp_sec))⟩,
     bin_comments_by_time df.rows bin_size_seconds)

/-- `segment_by_silence` as a heap operation: it only reads
`self.subtitle_df`. -/
def segmentBySilenceStep (heap : List SubtitleDF) (self_subtitle_df : ℕ)
    (min_gap_seconds min_segment_duration : ℚ) :
    List SubtitleDF × List Segment :=
  (heap, segment_by_silence (heap.getD self_subtitle_df ⟨[]⟩).rows
    min_gap_seconds min_segment_duration)

/-!  Concrete fixtures used by counterexamples and witnesses. -/

/-- The spec's scenario: comments at t = 10,15,20,25,100,105,110
(the module's own `__main__` test data). -/
def c2Records : List ChatRecord :=
  [⟨10, "User1", some "草"⟩, ⟨15, "User2", some "ww"⟩, ⟨20, "User1", some "笑"⟩,
   ⟨25, "User3", some "草生える"⟩, ⟨100, "User1", some "!?"⟩,
   ⟨105, "User2", some "すごい"⟩, ⟨110, "User1", some "www"⟩]

/-- Three comments, one exactly on the interior bin boundary 40. -/
def c1Records : List ChatRecord :=
  [⟨10, "u1", some "a"⟩, ⟨40, "u2", some "b"⟩, ⟨70, "u3", some "c"⟩]

/-- A single comment at the integer timestamp 10. -/
def c5Records : List ChatRecord := [⟨10, "u1", some "a"⟩]

/-- A regex engine that matches nothing (no subtitle text below contains
a topic marker or reaction keyword, so any faithful engine agrees). -/
def noMatch : String → String → Bool := fun _ _ => false

/-- Four contiguous subtitles spanning 0–40s with no silence gaps. -/
def contiguousSubs : List SubtitleRecord :=
  [⟨0, 10, "a"⟩, ⟨10, 20, "b"⟩, ⟨20, 30, "c"⟩, ⟨30, 40, "d"⟩]

/-!  Helper lemmas. -/

lemma pyMaxByCount_step (a x : TimeBin) (l : List TimeBin) :
    pyMaxByCount a (x :: l) =
      pyMaxByCount (if x.count > a.count then x else a) l := by
  rw [pyMaxByCount, pyMaxByCount, List.foldl_cons]

lemma pyMaxByCount_mem (a : TimeBin) (l : List TimeBin) :
    pyMaxByCount a l ∈ a :: l := by
  induction l generalizing a with
  | nil => simp [pyMaxByCount]
  | cons x l ih =>
    rw [pyMaxByCount_step]
    by_cases hc : x.count > a.count
    · rw [if_pos hc]
      exact List.mem_cons_of_mem a (ih x)
    · rw [if_neg hc]
      rcases List.mem_cons.mp (ih a) with h | h
      · exact List.mem_cons.mpr (Or.inl h)
      · exact List.mem_cons_of_mem _ (List.mem_cons_of_mem _ h)

lemma pyMaxByCount_le (a : TimeBin) (l : List TimeBin) :
    ∀ b ∈ a :: l, b.count ≤ (pyMaxByCount a l).count := by
  induction l generalizing a with
  | nil => simp [pyMaxByCount]
  | cons x l ih =>
    intro b hb
    rw [pyMaxByCount_step]
    have hax : a.count ≤ (if x.count > a.count then x else a).count := by
      by_cases hc : x.count > a.count
      · rw [if_pos hc]; omega
      · rw [if_neg hc]
    have hxx : x.count ≤ (if x.count > a.count then x else a).count := by
      by_cases hc : x.count > a.count
      · rw [if_pos hc]
      · rw [if_neg hc]; omega
    have hhead := ih _ _ (List.mem_cons_self (if x.count > a.count then x else a) l)
    rcases List.mem_cons.mp hb with rfl | hb
    · exact le_trans hax hhead
    · rcases List.mem_cons.mp hb with rfl | hb
      · exact le_trans hxx hhead
      · exact ih _ b (List.mem_cons_of_mem _ hb)

lemma count_keywords_nil_records (matcher : String → String → Bool)
    (keywords : List String) : count_keywords matcher [] keywords = [] := by
  induction keywords with
  | nil => rfl
  | cons k ks ih =>
    rw [count_keywords] at ih ⊢
    simp [ih]

/-!  Theorems for the claims. -/

/-- C6: every group of adjacent above-threshold bins that `find_peaks`
closes is collapsed by `_merge_peak_group` to a Peak whose start, end,
count and rate all come from a single maximum-count member bin of the
group (not from the group's overall span). -/
theorem merge_peak_group_uses_max_count_member (group : List TimeBin)
    (h : group ≠ []) :
    ∃ m ∈ group, (∀ b ∈ group, b.count ≤ m.count) ∧
      merge_peak_group group =
        ⟨m.bin_start, m.bin_end, m.count, m.comment_rate, 0⟩ := by
  match group with
  | a :: l =>
    exact ⟨pyMaxByCount a l, pyMaxByCount_mem a l, pyMaxByCount_le a l, rfl⟩

theorem merge_peak_group_uses_max_count_member_witness :
    ([(⟨0, 10, 2, 1/5⟩ : TimeBin), ⟨10, 20, 5, 1/2⟩] ≠ []) ∧
    ∃ m ∈ [(⟨0, 10, 2, 1/5⟩ : TimeBin), ⟨10, 20, 5, 1/2⟩],
      (∀ b ∈ [(⟨0, 10, 2, 1/5⟩ : TimeBin), ⟨10, 20, 5, 1/2⟩],
        b.count ≤ m.count) ∧
      merge_peak_group [⟨0, 10, 2, 1/5⟩, ⟨10, 20, 5, 1/2⟩] =
        ⟨m.bin_start, m.bin_end, m.count, m.comment_rate, 0⟩ :=
  ⟨by simp, merge_peak_group_uses_max_count_member _ (by simp)⟩

/-- C10: a record whose `message` is missing (NaN) matches no keyword —
`str.contains(..., na=False)` excludes it — so `count_keywords` returns
exactly what it returns on the batch with such records removed, and a
malformed record never aborts the batch. -/
theorem count_keywords_skips_missing_messages
    (matcher : String → String → Bool) (records : List ChatRecord)
    (keywords : List String) :
    count_keywords matcher records keywords =
      count_keywords matcher (records.filter (fun r => r.message.isSome))
        keywords := by
  rw [count_keywords, count_keywords]
  congr 1
  refine List.map_congr_left (fun keyword _ => ?_)
  induction records with
  | nil => rfl
  | cons r rs ih =>
    cases hm : r.message with
    | none => simpa [List.filterMap_cons, List.filter_cons, hm] using ih
    | some msg => simp [List.filterMap_cons, List.filter_cons, hm, ih]

lemma get_keyword_frequency_nil_records (matcher : String → String → Bool)
    (keywords : List String) (bs : ℤ) :
    get_keyword_frequency_over_time matcher [] keywords bs = [] := by
  rw [get_keyword_frequency_over_time, count_keywords_nil_records]

lemma generate_from_keywords_nil_records (matcher : String → String → Bool)
    (keywords : List String) (minD maxD : ℚ) :
    generate_from_keywords matcher [] keywords minD maxD = [] := by
  rw [generate_from_keywords, get_keyword_frequency_nil_records]

/-- C8: `generate_candidates` treats missing sources and empty sources as
ordinary inputs: with neither analyzer supplied, and likewise with both
analyzers over empty record sets (every producer yielding no signals),
the result is the empty list — a valid value, not an error (the embedding
is total: no code path of the pipeline raises). -/
theorem generate_candidates_empty_sources_empty
    (matcher : String → String → Bool) (min_duration max_duration : ℚ)
    (reaction_keywords : List String) :
    generate_candidates matcher none none min_duration max_duration
      reaction_keywords = [] ∧
    generate_candidates matcher (some []) (some []) min_duration max_duration
      reaction_keywords = [] := by
  constructor
  · rfl
  · rw [generate_candidates, generate_from_keywords_nil_records]
    rfl

lemma not_duration_in_bounds {minD maxD : ℚ} (h : maxD < minD) (d : ℚ) :
    ¬(minD ≤ d ∧ d ≤ maxD) := fun hc =>
  absurd (le_trans hc.1 hc.2) (not_le.mpr h)

lemma generate_from_comment_peaks_min_gt_max (records : List ChatRecord)
    {minD maxD : ℚ} (h : maxD < minD) :
    generate_from_comment_peaks records minD maxD = [] := by
  rw [generate_from_comment_peaks]
  refine List.filterMap_eq_nil_iff.mpr (fun peak _ => ?_)
  dsimp only
  rw [if_neg (not_duration_in_bounds h _)]

lemma create_candidate_from_group_min_gt_max (group : List SummedBin)
    (reason : String) {minD maxD : ℚ} (h : maxD < minD) :
    create_candidate_from_group group reason minD maxD = none := by
  match group with
  | [] => rfl
  | first :: rest =>
    rw [create_candidate_from_group]
    rw [if_neg (not_duration_in_bounds h _)]

lemma generate_from_keywords_min_gt_max (matcher : String → String → Bool)
    (records : List ChatRecord) (keywords : List String)
    {minD maxD : ℚ} (h : maxD < minD) :
    generate_from_keywords matcher records keywords minD maxD = [] := by
  rw [generate_from_keywords]
  cases hkf : get_keyword_frequency_over_time matcher records keywords 10 with
  | nil => rfl
  | cons kb kbs =>
    dsimp only
    split
    · rfl
    · exact List.filterMap_eq_nil_iff.mpr
        (fun group _ => create_candidate_from_group_min_gt_max group _ h)

lemma generate_from_subtitle_segments_min_gt_max
    (subs : List SubtitleRecord) {minD maxD : ℚ} (h : maxD < minD) :
    generate_from_subtitle_segments subs minD maxD = [] := by
  rw [generate_from_subtitle_segments]
  refine List.filterMap_eq_nil_iff.mpr (fun segment _ => ?_)
  dsimp only
  rw [if_neg (not_duration_in_bounds h _)]

lemma generate_from_topic_changes_min_gt_max
    (matcher : String → String → Bool) (subs : List SubtitleRecord)
    {minD maxD : ℚ} (h : maxD < minD) :
    generate_from_topic_changes matcher subs minD maxD = [] := by
  rw [generate_from_topic_changes]
  refine List.filterMap_eq_nil_iff.mpr (fun i _ => ?_)
  dsimp only
  cases (detect_topic_changes matcher subs defaultTopicKeywords).get? i with
  | none => rfl
  | some change =>
    dsimp only
    rw [if_neg (not_duration_in_bounds h _)]

/-- C3 (amended): `generate_candidates` performs no validation of
`min_duration > max_duration`; no producer can emit a candidate whose
duration satisfies the empty bounds, so such a request is silently
answered with the normal empty list rather than rejected as an
InvalidParameter error. -/
theorem generate_candidates_min_over_max_empty
    (matcher : String → String → Bool)
    (comment_records : Option (List ChatRecord))
    (subtitle_records : Option (List SubtitleRecord))
    (min_duration max_duration : ℚ) (reaction_keywords : List String)
    (h : max_duration < min_duration) :
    generate_candidates matcher comment_records subtitle_records
      min_duration max_duration reaction_keywords = [] := by
  cases comment_records with
  | none =>
    cases subtitle_records with
    | none => rfl
    | some subs =>
      simp only [generate_candidates]
      rw [generate_from_subtitle_segments_min_gt_max subs h,
        generate_from_topic_changes_min_gt_max matcher subs h]
      rfl
  | some records =>
    cases subtitle_records with
    | none =>
      simp only [generate_candidates]
      rw [generate_from_comment_peaks_min_gt_max records h,
        generate_from_keywords_min_gt_max matcher records reaction_keywords h]
      rfl
    | some subs =>
      simp only [generate_candidates]
      rw [generate_from_comment_peaks_min_gt_max records h,
        generate_from_keywords_min_gt_max matcher records reaction_keywords h,
        generate_from_subtitle_segments_min_gt_max subs h,
        generate_from_topic_changes_min_gt_max matcher subs h]
      rfl

theorem generate_candidates_min_over_max_empty_witness :
    ((50 : ℚ) < 100) ∧
    generate_candidates noMatch (some c2Records) (some contiguousSubs)
      100 50 defaultReactionKeywords = [] :=
  ⟨by norm_num,
   generate_candidates_min_over_max_empty noMatch (some c2Records)
     (some contiguousSubs) 100 50 defaultReactionKeywords (by norm_num)⟩

/-- C3 (counterexample): a request with `min_duration = 100 >
max_duration = 50` over real comment and subtitle data is answered with
the normal empty list; nothing in `generate_candidates` rejects it as an
error (the pipeline has no validation and no raising path). -/
theorem min_over_max_returns_normal_empty_cex :
    generate_candidates noMatch (some c2Records) (some contiguousSubs)
      100 50 defaultReactionKeywords = [] := by
  exact generate_candidates_min_over_max_empty noMatch (some c2Records)
    (some contiguousSubs) 100 50 defaultReactionKeywords (by norm_num)

lemma calculate_score_le_one (c : MergedCandidate) : calculate_score c ≤ 1 := by
  rw [calculate_score]
  exact min_le_right _ _

lemma score_fold_nonneg (l : List CandidateDetails) :
    ∀ acc : ℚ, 0 ≤ acc →
      0 ≤ l.foldl (fun score details =>
        match details with
        | .peakD peak_count _ => score + min ((peak_count : ℚ) / 100) (3/10)
        | .keywordD total_count => score + min ((total_count : ℚ) / 50) (1/5)
        | _ => score) acc := by
  induction l with
  | nil => exact fun acc h => h
  | cons d l ih =>
    intro acc hacc
    rw [List.foldl_cons]
    refine ih _ ?_
    cases d with
    | peakD peak_count peak_time =>
      exact add_nonneg hacc (le_min (by positivity) (by norm_num))
    | keywordD total_count =>
      exact add_nonneg hacc (le_min (by positivity) (by norm_num))
    | segmentD a b t => exact hacc
    | topicD k t => exact hacc

lemma calculate_score_nonneg (c : MergedCandidate) : 0 ≤ calculate_score c := by
  rw [calculate_score]
  refine le_min ?_ zero_le_one
  refine score_fold_nonneg _ _ (le_min ?_ (by norm_num))
  positivity

lemma mergeLoop_members (l : List Candidate) :
    ∀ (cur : MergedCandidate) (c : MergedCandidate), c ∈ mergeLoop cur l →
      ∃ m, c = finalizeMerged m := by
  induction l with
  | nil =>
    intro cur c hc
    rw [mergeLoop] at hc
    exact ⟨cur, (List.mem_singleton.mp hc)⟩
  | cons candidate rest ih =>
    intro cur c hc
    rw [mergeLoop] at hc
    split at hc
    · exact ih _ c hc
    · rcases List.mem_cons.mp hc with rfl | hc
      · exact ⟨cur, rfl⟩
      · exact ih _ c hc

lemma merge_and_score_members (candidates : List Candidate)
    (min_duration max_duration : ℚ) :
    ∀ c ∈ merge_and_score_candidates candidates min_duration max_duration,
      ∃ m, c.score = calculate_score m := by
  intro c hc
  rw [merge_and_score_candidates] at hc
  rcases hs : candidates.insertionSort (fun a b => a.start ≤ b.start) with
    _ | ⟨first, rest⟩
  · rw [hs] at hc
    simp at hc
  · rw [hs] at hc
    dsimp only at hc
    rcases List.mem_filterMap.mp hc with ⟨a, ha, hfa⟩
    rcases mergeLoop_members rest (initMerged first) a ha with ⟨m, rfl⟩
    split at hfa
    · cases hfa
      exact ⟨m, rfl⟩
    · cases hfa

/-- C4: every candidate emitted by `generate_candidates` — whatever the
records, parameters and number of merged source details — carries a score
in the closed interval [0, 1]: each score is produced by
`_calculate_score`, whose reason and count contributions are nonnegative
and whose result is clamped by `min(score, 1.0)`. -/
theorem generate_candidates_score_in_unit_interval
    (matcher : String → String → Bool)
    (comment_records : Option (List ChatRecord))
    (subtitle_records : Option (List SubtitleRecord))
    (min_duration max_duration : ℚ) (reaction_keywords : List String) :
    ∀ c ∈ generate_candidates matcher comment_records subtitle_records
      min_duration max_duration reaction_keywords,
      0 ≤ c.score ∧ c.score ≤ 1 := by
  intro c hc
  rw [generate_candidates.eq_def] at hc
  have hc' := (List.perm_insertionSort
    (fun a b : MergedCandidate => b.score ≤ a.score) _).mem_iff.mp hc
  rcases merge_and_score_members _ _ _ c hc' with ⟨m, hm⟩
  rw [hm]
  exact ⟨calculate_score_nonneg m, calculate_score_le_one m⟩

lemma segment_by_silence_contiguous_eval :
    segment_by_silence contiguousSubs 2 30 = [⟨0, 0, 40, 40, 4, "a b c d"⟩] := by
  norm_num [segment_by_silence, detect_silence_gaps, segmentLoop, contiguousSubs,
    List.zip, List.zipWith, List.filterMap_cons]
  rw [if_neg (List.cons_ne_nil _ _), if_neg (List.cons_ne_nil _ _)]
  rfl

lemma generate_candidates_contiguous_eval :
    generate_candidates noMatch none (some contiguousSubs) 30 180 [] =
      [⟨0, 40, "字幕セグメント", 3/10, .segmentD 0 4 "a b c d",
        ["字幕セグメント"], [.segmentD 0 4 "a b c d"]⟩] := by
  rw [generate_candidates.eq_def]
  norm_num [generate_from_subtitle_segments, segment_by_silence_contiguous_eval,
    generate_from_topic_changes, detect_topic_changes, defaultTopicKeywords,
    noMatch, List.filterMap_cons, merge_and_score_candidates,
    List.insertionSort, List.orderedInsert, mergeLoop, initMerged,
    finalizeMerged, calculate_score, List.eraseDups]
  exact ⟨rfl, fun h => absurd h (by decide)⟩

theorem generate_candidates_score_in_unit_interval_witness :
    0 ≤ (⟨0, 40, "字幕セグメント", 3/10, .segmentD 0 4 "a b c d",
          ["字幕セグメント"], [.segmentD 0 4 "a b c d"]⟩ : MergedCandidate).score ∧
    (⟨0, 40, "字幕セグメント", 3/10, .segmentD 0 4 "a b c d",
      ["字幕セグメント"], [.segmentD 0 4 "a b c d"]⟩ : MergedCandidate).score ≤ 1 :=
  generate_candidates_score_in_unit_interval noMatch none (some contiguousSubs)
    30 180 [] _
    (by rw [generate_candidates_contiguous_eval]; exact List.mem_singleton.mpr rfl)

lemma detect_silence_gaps_none (subs : List SubtitleRecord) (min_gap : ℚ)
    (hnogap : ∀ p ∈ subs.zip subs.tail, p.2.start - p.1.endTime < min_gap) :
    detect_silence_gaps subs min_gap = [] := by
  rw [detect_silence_gaps]
  split
  · rfl
  · refine List.filterMap_eq_nil_iff.mpr (fun p hp => ?_)
    dsimp only
    rw [if_neg (not_le.mpr (hnogap p hp))]

lemma segmentLoop_no_gaps (min_seg : ℚ) :
    ∀ (subs : List SubtitleRecord) (hne : subs ≠ []) (segment_start : ℚ)
      (cur : List SubtitleRecord) (acc : List Segment),
      segmentLoop [] min_seg segment_start cur acc subs =
        if min_seg ≤ (subs.getLast hne).endTime - segment_start then
          acc ++ [⟨acc.length, segment_start, (subs.getLast hne).endTime,
            (subs.getLast hne).endTime - segment_start,
            (cur ++ subs).length, " ".intercalate ((cur ++ subs).map (·.text))⟩]
        else acc := by
  intro subs
  induction subs with
  | nil => intro hne; exact absurd rfl hne
  | cons x rest ih =>
    intro hne segment_start cur acc
    rw [segmentLoop]
    cases rest with
    | nil =>
      rw [if_pos (Or.inr rfl)]
      rw [List.getLast_singleton]
    | cons y rest' =>
      have hys : (y :: rest') ≠ [] := List.cons_ne_nil y rest'
      rw [if_neg (by simp)]
      rw [ih hys segment_start (cur ++ [x]) acc]
      rw [List.getLast_cons hys]
      simp [List.append_assoc]

/-- C7: a non-empty, start-sorted subtitle stream in which no adjacent
pair leaves a gap of at least `min_gap_seconds` is segmented by
`segment_by_silence` into exactly one segment spanning from the first
subtitle's start to the last subtitle's end when that span reaches
`min_segment_duration`, and into no segment otherwise. -/
theorem segment_by_silence_no_gaps_single_segment
    (subs : List SubtitleRecord) (min_gap min_seg : ℚ) (hne : subs ≠ [])
    (hsorted : List.Chain' (fun a b : SubtitleRecord => a.start ≤ b.start) subs)
    (hnogap : ∀ p ∈ subs.zip subs.tail, p.2.start - p.1.endTime < min_gap) :
    segment_by_silence subs min_gap min_seg =
      if min_seg ≤ (subs.getLast hne).endTime - (subs.head hne).start then
        [⟨0, (subs.head hne).start, (subs.getLast hne).endTime,
          (subs.getLast hne).endTime - (subs.head hne).start,
          subs.length, " ".intercalate (subs.map (·.text))⟩]
      else [] := by
  match subs, hne with
  | first :: rest, hne =>
    rw [segment_by_silence, detect_silence_gaps_none _ _ hnogap]
    rw [segmentLoop_no_gaps min_seg (first :: rest) hne first.start [] []]
    simp [List.head_cons]

theorem segment_by_silence_no_gaps_single_segment_witness :
    segment_by_silence contiguousSubs 2 30 = [⟨0, 0, 40, 40, 4, "a b c d"⟩] := by
  have h := segment_by_silence_no_gaps_single_segment contiguousSubs 2 30
    (List.cons_ne_nil _ _)
    (by norm_num [contiguousSubs, List.chain'_cons])
    (by norm_num [contiguousSubs, List.zip, List.zipWith])
  rw [h]
  norm_num [contiguousSubs]
  rfl

lemma getD_set_ne {α : Type} {l : List α} {a : α} {i j : ℕ} (h : i ≠ j)
    (d : α) : (l.set i a).getD j d = l.getD j d := by
  simp only [List.getD_eq_getElem?_getD]
  rw [List.getElem?_set_ne h]

/-- C9: each analyzer constructor stores a *copy* of the caller's
DataFrame, so no subsequent analyzer operation — including
`bin_comments_by_time`, which writes a working `bin` column into the
analyzer's own object — modifies the object the caller passed in. -/
theorem analyzer_constructor_copies_input
    (cheap : List ChatDF) (chat_df : ℕ) (bin_size_seconds : ℤ)
    (sheap : List SubtitleDF) (subtitle_df : ℕ)
    (min_gap min_segment : ℚ)
    (hc : chat_df < cheap.length) (hs : subtitle_df < sheap.length) :
    ((binCommentsByTimeStep (commentAnalyzerInit cheap chat_df).1
        (commentAnalyzerInit cheap chat_df).2 bin_size_seconds).1.getD
      chat_df ⟨[], none⟩ = cheap.getD chat_df ⟨[], none⟩) ∧
    ((segmentBySilenceStep (subtitleAnalyzerInit sheap subtitle_df).1
        (subtitleAnalyzerInit sheap subtitle_df).2 min_gap
        min_segment).1.getD subtitle_df ⟨[]⟩ =
      sheap.getD subtitle_df ⟨[]⟩) := by
  constructor
  · rw [commentAnalyzerInit, binCommentsByTimeStep.eq_def]
    dsimp only
    have hne : cheap.length ≠ chat_df := fun he => absurd hc (by omega)
    split
    · exact List.getD_append cheap _ _ _ hc
    · rw [getD_set_ne hne]
      exact List.getD_append cheap _ _ _ hc
  · rw [subtitleAnalyzerInit, segmentBySilenceStep]
    dsimp only
    exact List.getD_append sheap _ _ _ hs

theorem analyzer_constructor_copies_input_witness :
    ((binCommentsByTimeStep
        (commentAnalyzerInit [⟨c2Records, none⟩] 0).1
        (commentAnalyzerInit [⟨c2Records, none⟩] 0).2 30).1.getD
      0 ⟨[], none⟩ = ([⟨c2Records, none⟩] : List ChatDF).getD 0 ⟨[], none⟩) ∧
    ((segmentBySilenceStep
        (subtitleAnalyzerInit [⟨contiguousSubs⟩] 0).1
        (subtitleAnalyzerInit [⟨contiguousSubs⟩] 0).2 2 30).1.getD
      0 ⟨[]⟩ = ([⟨contiguousSubs⟩] : List SubtitleDF).getD 0 ⟨[]⟩) :=
  analyzer_constructor_copies_input [⟨c2Records, none⟩] 0 30
    [⟨contiguousSubs⟩] 0 2 30 (by norm_num) (by norm_num)

lemma binEdges_c2 : binEdges c2Records 30 = [10, 40, 70, 100, 130] := by
  have hmin : colMin (c2Records.map (·.timestamp_sec)) = 10 := by
    norm_num [colMin, c2Records, min_def]
  have hmax : colMax (c2Records.map (·.timestamp_sec)) = 110 := by
    norm_num [colMax, c2Records, max_def]
  have hfloor : (⌊(10:ℚ)⌋ : ℤ) = 10 := by rw [Int.floor_eq_iff]; norm_num
  have hceil : (⌈(110:ℚ)⌉ : ℤ) = 110 := by rw [Int.ceil_eq_iff]; norm_num
  rw [binEdges, hmin, hmax, hfloor, hceil, arangeQ]
  push_cast
  rw [show ((110:ℚ) + 30 - 10) / 30 = 13/3 by norm_num]
  rw [show (⌈(13:ℚ)/3⌉ : ℤ) = 5 by rw [Int.ceil_eq_iff]; norm_num]
  rw [show ((5:ℤ).toNat) = 5 from rfl]
  norm_num [List.range_succ]

lemma bin_comments_by_time_ne_nil (records : List ChatRecord) (bs : ℤ)
    (h : records ≠ []) :
    bin_comments_by_time records bs =
      (List.range ((binEdges records bs).length - 1)).filterMap (fun j =>
        let c := (records.filter
          (fun r => cutLabel (binEdges records bs) r.timestamp_sec = some j)).length
        if c = 0 then none
        else some ⟨(binEdges records bs).getD j 0,
          (binEdges records bs).getD (j + 1) 0, c, (c : ℚ) / (bs : ℚ)⟩) := by
  match records, h with
  | r :: rest, _ =>
    rw [bin_comments_by_time]
    exact fun hh => absurd hh (List.cons_ne_nil r rest)

lemma binned_c2 : bin_comments_by_time c2Records 30 =
    [⟨10, 40, 4, 2/15⟩, ⟨70, 100, 1, 1/30⟩, ⟨100, 130, 2, 1/15⟩] := by
  rw [bin_comments_by_time_ne_nil c2Records 30 (by simp [c2Records])]
  rw [binEdges_c2]
  norm_num [c2Records, cutLabel, searchsortedLeft, List.getD_cons_zero,
    List.getD_cons_succ, List.range_succ, List.filterMap_cons, List.filter_cons,
    List.cons_ne_nil]

lemma sort_c2 : (([4,1,2] : List ℚ).insertionSort (· ≤ ·)) = [1,2,4] := by
  norm_num [List.insertionSort, List.orderedInsert]

lemma percentile_c2 : npPercentile [4,1,2] 75 = 3 := by
  rw [npPercentile, sort_c2]
  rw [show ((([1,2,4] : List ℚ).length : ℚ) - 1) * 75 / 100 = 3/2 by norm_num]
  rw [show (⌊(3:ℚ)/2⌋ : ℤ) = 1 by rw [Int.floor_eq_iff]; norm_num]
  norm_num

lemma peaks_c2 :
    find_peaks [⟨10, 40, 4, 2/15⟩, ⟨70, 100, 1, 1/30⟩, ⟨100, 130, 2, 1/15⟩]
      75 30 = [⟨10, 40, 4, 2/15, 0⟩] := by
  rw [find_peaks.eq_def]
  norm_num [percentile_c2, peakGroupLoop, merge_peak_group, pyMaxByCount,
    List.filter_cons]

/-- C2 (counterexample): for comments at t = {10,15,20,25,100,105,110} and
bin size 30, `bin_comments_by_time` does NOT return the two bins
`[0,30)`:4 and `[90,120)`:3 the claim states — the edge grid starts at
`floor(min) = 10`, not 0, and `pd.cut`'s intervals are right-closed, so
the actual result is three bins (10→40]:4, (70,100]:1, (100,130]:2 (the
first closed on the left); and `find_peaks` at the 75th percentile of
{4,1,2} (= 3.0) admits only the count-4 bin and returns ONE peak, not
two. -/
theorem spec_scenario_bins_peaks_cex :
    bin_comments_by_time c2Records 30 =
      [⟨10, 40, 4, 2/15⟩, ⟨70, 100, 1, 1/30⟩, ⟨100, 130, 2, 1/15⟩] ∧
    (¬ ∃ b ∈ bin_comments_by_time c2Records 30, b.bin_start = 0) ∧
    (bin_comments_by_time c2Records 30).length ≠ 2 ∧
    (find_peaks (bin_comments_by_time c2Records 30) 75 30).length ≠ 2 := by
  refine ⟨binned_c2, ?_, ?_, ?_⟩
  · rw [binned_c2]
    norm_num
  · rw [binned_c2]
    norm_num
  · rw [binned_c2, peaks_c2]
    norm_num

/-- C2 (amended): for comments at t = {10,15,20,25,100,105,110} and bin
size 30s, `bin_comments_by_time` builds the edges [10,40,70,100,130] and
returns the three right-closed bins (10→40] count 4 (closed on the left
to include the minimum), (70,100] count 1 and (100,130] count 2; over
these counts `find_peaks(threshold_percentile=75)` computes the 75th
percentile of {4,1,2} as 3.0, admits only the count-4 bin, and returns
exactly one peak, taken from that bin. -/
theorem spec_scenario_actual_bins_and_single_peak :
    bin_comments_by_time c2Records 30 =
      [⟨10, 40, 4, 2/15⟩, ⟨70, 100, 1, 1/30⟩, ⟨100, 130, 2, 1/15⟩] ∧
    npPercentile [4, 1, 2] 75 = 3 ∧
    find_peaks (bin_comments_by_time c2Records 30) 75 30 =
      [⟨10, 40, 4, 2/15, 0⟩] := by
  refine ⟨binned_c2, percentile_c2, ?_⟩
  rw [binned_c2, peaks_c2]
lemma foldl_min_le (r : List ℚ) :
    ∀ a : ℚ, r.foldl min a ≤ a ∧ ∀ x ∈ r, r.foldl min a ≤ x := by
  induction r with
  | nil => exact fun a => ⟨le_refl a, by simp⟩
  | cons x r ih =>
    intro a
    rw [List.foldl_cons]
    refine ⟨le_trans (ih (min a x)).1 (min_le_left a x), ?_⟩
    intro y hy
    rcases List.mem_cons.mp hy with rfl | hy
    · exact le_trans (ih (min a y)).1 (min_le_right a y)
    · exact (ih (min a x)).2 y hy

lemma le_foldl_max (r : List ℚ) :
    ∀ a : ℚ, a ≤ r.foldl max a ∧ ∀ x ∈ r, x ≤ r.foldl max a := by
  induction r with
  | nil => exact fun a => ⟨le_refl a, by simp⟩
  | cons x r ih =>
    intro a
    rw [List.foldl_cons]
    refine ⟨le_trans (le_max_left a x) (ih (max a x)).1, ?_⟩
    intro y hy
    rcases List.mem_cons.mp hy with rfl | hy
    · exact le_trans (le_max_right a y) (ih (max a y)).1
    · exact (ih (max a x)).2 y hy

lemma colMin_le_mem (l : List ℚ) : ∀ x ∈ l, colMin l ≤ x := by
  match l with
  | [] => simp
  | a :: r =>
    intro x hx
    rw [colMin]
    rcases List.mem_cons.mp hx with rfl | hx
    · exact (foldl_min_le r x).1
    · exact (foldl_min_le r a).2 x hx

lemma mem_le_colMax (l : List ℚ) : ∀ x ∈ l, x ≤ colMax l := by
  match l with
  | [] => simp
  | a :: r =>
    intro x hx
    rw [colMax]
    rcases List.mem_cons.mp hx with rfl | hx
    · exact (le_foldl_max r x).1
    · exact (le_foldl_max r a).2 x hx

lemma range_filter_lt_length (n c : ℕ) :
    ((List.range n).filter (fun k => decide (k < c))).length = min n c := by
  induction n with
  | zero => simp
  | succ n ih =>
    rw [List.range_succ, List.filter_append, List.length_append, ih]
    by_cases h : n < c
    · simp only [List.filter_cons, List.filter_nil, h]
      simp
      omega
    · simp only [List.filter_cons, List.filter_nil, h]
      simp
      omega

lemma arith_getD (a step : ℚ) (n k : ℕ) (hk : k < n) :
    (((List.range n).map (fun (j : ℕ) => a + (j : ℚ) * step)).getD k 0) =
      a + (k : ℚ) * step := by
  rw [List.getD_eq_getElem?_getD, List.getElem?_map, List.getElem?_range hk]
  rfl

lemma searchsorted_arith (a step t : ℚ) (hstep : 0 < step) (n : ℕ) :
    searchsortedLeft ((List.range n).map (fun (j : ℕ) => a + (j : ℚ) * step)) t =
      min n (⌈(t - a) / step⌉.toNat) := by
  rw [searchsortedLeft, List.filter_map, List.length_map]
  rw [List.filter_congr (fun k _ => ?_), range_filter_lt_length]
  show (decide (a + (k : ℚ) * step < t)) = decide (k < (⌈(t - a) / step⌉).toNat)
  rw [decide_eq_decide, Int.lt_toNat, Int.lt_ceil, lt_div_iff₀ hstep]
  push_cast
  constructor
  · intro h; linarith
  · intro h; linarith

lemma cutLabel_arith_spec (a step t : ℚ) (hstep : 0 < step) (n : ℕ) (hn : 2 ≤ n)
    (hta : a ≤ t) (htb : t ≤ a + ((n : ℚ) - 1) * step) :
    ∃ j, cutLabel ((List.range n).map (fun (j : ℕ) => a + (j : ℚ) * step)) t
        = some j ∧
      j + 1 < n ∧
      ((a + (j : ℚ) * step < t ∧ t ≤ a + ((j : ℚ) + 1) * step) ∨
        (j = 0 ∧ t = a)) := by
  set E := (List.range n).map (fun (j : ℕ) => a + (j : ℚ) * step) with hE
  have hlen : E.length = n := by simp [hE]
  have hne : E ≠ [] := List.ne_nil_of_length_pos (by omega)
  have hget0 : E.getD 0 0 = a := by
    rw [hE, arith_getD a step n 0 (by omega)]
    simp
  simp only [cutLabel]
  by_cases hteq : t = a
  · have hcond : E ≠ [] ∧ t = E.getD 0 0 := ⟨hne, by rw [hget0, hteq]⟩
    rw [if_pos hcond]
    rw [if_neg (show ¬((1 : ℕ) = 0 ∨ 1 = E.length) by simp [hlen]; omega)]
    exact ⟨0, rfl, by omega, Or.inr ⟨rfl, hteq⟩⟩
  · have hcond : ¬(E ≠ [] ∧ t = E.getD 0 0) := by
      rw [hget0]
      exact fun hc => hteq hc.2
    rw [if_neg hcond]
    have hss : searchsortedLeft E t = min n (⌈(t - a) / step⌉).toNat := by
      rw [hE, searchsorted_arith a step t hstep n]
    have hta2 : a < t := lt_of_le_of_ne hta (Ne.symm hteq)
    have hc1 : 1 ≤ ⌈(t - a) / step⌉ :=
      Int.ceil_pos.mpr (div_pos (by linarith) hstep)
    have hcn : ⌈(t - a) / step⌉ ≤ (n : ℤ) - 1 := by
      rw [Int.ceil_le]
      push_cast
      rw [div_le_iff₀ hstep]
      linarith [htb]
    rw [hss, min_eq_right (by omega)]
    rw [if_neg (show ¬((⌈(t - a) / step⌉).toNat = 0 ∨
        (⌈(t - a) / step⌉).toNat = E.length) by rw [hlen]; omega)]
    refine ⟨(⌈(t - a) / step⌉).toNat - 1, rfl, by omega, Or.inl ⟨?_, ?_⟩⟩
    · have hjc : ((((⌈(t - a) / step⌉).toNat - 1 : ℕ)) : ℚ) =
          ((⌈(t - a) / step⌉ : ℤ) : ℚ) - 1 := by
        have h2 : (((⌈(t - a) / step⌉).toNat - 1 : ℕ) : ℤ) =
            ⌈(t - a) / step⌉ - 1 := by omega
        exact_mod_cast h2
      rw [hjc]
      have hceil : ((⌈(t - a) / step⌉ : ℤ) : ℚ) - 1 < (t - a) / step := by
        have h3 := Int.ceil_lt_add_one ((t - a) / step)
        linarith
      have h4 := (lt_div_iff₀ hstep).mp hceil
      linarith
    · have hjc : ((((⌈(t - a) / step⌉).toNat - 1 : ℕ)) : ℚ) + 1 =
          ((⌈(t - a) / step⌉ : ℤ) : ℚ) := by
        have h2 : ((((⌈(t - a) / step⌉).toNat - 1 : ℕ)) : ℤ) + 1 =
            ⌈(t - a) / step⌉ := by omega
        exact_mod_cast h2
      rw [hjc]
      have hceil : (t - a) / step ≤ ((⌈(t - a) / step⌉ : ℤ) : ℚ) :=
        Int.le_ceil _
      have h4 := (div_le_iff₀ hstep).mp hceil
      linarith

lemma arange_count_facts (m M : ℚ) (bs : ℤ) (hbs : 0 < bs)
    (hlt : ⌊m⌋ < ⌈M⌉) :
    2 ≤ (⌈(((⌈M⌉ : ℚ) + (bs : ℚ)) - (⌊m⌋ : ℚ)) / (bs : ℚ)⌉).toNat ∧
    (⌈M⌉ : ℚ) ≤ (⌊m⌋ : ℚ) +
      (((⌈(((⌈M⌉ : ℚ) + (bs : ℚ)) - (⌊m⌋ : ℚ)) / (bs : ℚ)⌉).toNat : ℚ) - 1) *
        (bs : ℚ) := by
  have hstep : (0 : ℚ) < (bs : ℚ) := by exact_mod_cast hbs
  have hD : (1 : ℚ) ≤ (⌈M⌉ : ℚ) - (⌊m⌋ : ℚ) := by
    have : (⌊m⌋ : ℚ) + 1 ≤ (⌈M⌉ : ℚ) := by exact_mod_cast hlt
    linarith
  have hq : (((⌈M⌉ : ℚ) + (bs : ℚ)) - (⌊m⌋ : ℚ)) / (bs : ℚ) =
      ((⌈M⌉ : ℚ) - (⌊m⌋ : ℚ)) / (bs : ℚ) + 1 := by
    field_simp
    ring
  have hc0 : 1 ≤ ⌈((⌈M⌉ : ℚ) - (⌊m⌋ : ℚ)) / (bs : ℚ)⌉ :=
    Int.ceil_pos.mpr (div_pos (by linarith) hstep)
  have hceil : ⌈(((⌈M⌉ : ℚ) + (bs : ℚ)) - (⌊m⌋ : ℚ)) / (bs : ℚ)⌉ =
      ⌈((⌈M⌉ : ℚ) - (⌊m⌋ : ℚ)) / (bs : ℚ)⌉ + 1 := by
    rw [hq, Int.ceil_add_one]
  constructor
  · rw [hceil]; omega
  · rw [hceil]
    have hn : ((((⌈((⌈M⌉ : ℚ) - (⌊m⌋ : ℚ)) / (bs : ℚ)⌉ + 1).toNat) : ℚ) - 1) =
        ((⌈((⌈M⌉ : ℚ) - (⌊m⌋ : ℚ)) / (bs : ℚ)⌉ : ℤ) : ℚ) := by
      have h2 : (((⌈((⌈M⌉ : ℚ) - (⌊m⌋ : ℚ)) / (bs : ℚ)⌉ + 1).toNat) : ℤ) - 1 =
          ⌈((⌈M⌉ : ℚ) - (⌊m⌋ : ℚ)) / (bs : ℚ)⌉ := by omega
      exact_mod_cast h2
    rw [hn]
    have h3 : ((⌈M⌉ : ℚ) - (⌊m⌋ : ℚ)) / (bs : ℚ) ≤
        ((⌈((⌈M⌉ : ℚ) - (⌊m⌋ : ℚ)) / (bs : ℚ)⌉ : ℤ) : ℚ) := Int.le_ceil _
    have h4 := (div_le_iff₀ hstep).mp h3
    linarith

set_option maxHeartbeats 1000000 in
/-- C1 (amended): for every non-empty record set, every bin size > 0 and
`floor(min) < ceil(max)` (without which the edge grid degenerates to a
single edge and no record is binned at all), each record with timestamp
`t` is placed by `bin_comments_by_time` into a bin `(b, b + binSize]`
with `b = floor(minTimestamp) + k*binSize`: the bins are right-closed
(`pd.cut`'s default), with the FIRST bin closed on the left so the
minimum timestamp is included; a record whose timestamp equals an
interior bin boundary is counted in the bin that ENDS at that boundary,
not the one that starts there. -/
theorem bin_comments_right_closed_placement
    (records : List ChatRecord) (bs : ℤ) (hne : records ≠ []) (hbs : 0 < bs)
    (hlt : ⌊colMin (records.map (·.timestamp_sec))⌋ <
      ⌈colMax (records.map (·.timestamp_sec))⌉) :
    ∀ r ∈ records, ∃ bin ∈ bin_comments_by_time records bs,
      (∃ k : ℕ, bin.bin_start =
        (⌊colMin (records.map (·.timestamp_sec))⌋ : ℚ) + (k : ℚ) * (bs : ℚ)) ∧
      bin.bin_end = bin.bin_start + (bs : ℚ) ∧
      ((bin.bin_start < r.timestamp_sec ∧ r.timestamp_sec ≤ bin.bin_end) ∨
        (r.timestamp_sec = bin.bin_start ∧
          bin.bin_start = (⌊colMin (records.map (·.timestamp_sec))⌋ : ℚ))) := by
  intro r hr
  have hstep : (0 : ℚ) < (bs : ℚ) := by exact_mod_cast hbs
  set m := colMin (records.map (·.timestamp_sec)) with hm
  set M := colMax (records.map (·.timestamp_sec)) with hM
  set nn := (⌈(((⌈M⌉ : ℚ) + (bs : ℚ)) - (⌊m⌋ : ℚ)) / (bs : ℚ)⌉).toNat with hnn
  obtain ⟨hn2, hlast⟩ := arange_count_facts m M bs hbs hlt
  rw [← hnn] at hn2 hlast
  have hedges : binEdges records bs =
      (List.range nn).map
        (fun (k : ℕ) => (⌊m⌋ : ℚ) + (k : ℚ) * (bs : ℚ)) := by
    rw [binEdges, arangeQ, ← hm, ← hM, ← hnn]
  have htmem : r.timestamp_sec ∈ records.map (·.timestamp_sec) :=
    List.mem_map.mpr ⟨r, hr, rfl⟩
  have hta : (⌊m⌋ : ℚ) ≤ r.timestamp_sec :=
    le_trans (Int.floor_le _) (colMin_le_mem _ _ htmem)
  have htb : r.timestamp_sec ≤ (⌊m⌋ : ℚ) + ((nn : ℚ) - 1) * (bs : ℚ) :=
    le_trans (le_trans (mem_le_colMax _ _ htmem) (Int.le_ceil _)) hlast
  obtain ⟨j, hj, hjn, hmem⟩ := cutLabel_arith_spec
    (⌊m⌋ : ℚ) (bs : ℚ) r.timestamp_sec hstep nn hn2 hta htb
  rw [← hedges] at hj
  rw [bin_comments_by_time_ne_nil records bs hne]
  have hlen : (binEdges records bs).length = nn := by rw [hedges]; simp
  have hcount : 0 < (records.filter
      (fun r' => cutLabel (binEdges records bs) r'.timestamp_sec = some j)).length := by
    have hmem2 : r ∈ records.filter
        (fun r' => cutLabel (binEdges records bs) r'.timestamp_sec = some j) :=
      List.mem_filter.mpr ⟨hr, by simp [hj]⟩
    exact List.length_pos.mpr (fun h0 => by simp [h0] at hmem2)
  have hgd1 : (binEdges records bs).getD j 0 = (⌊m⌋ : ℚ) + (j : ℚ) * (bs : ℚ) := by
    rw [hedges, arith_getD _ _ _ _ (by omega)]
  have hgd2 : (binEdges records bs).getD (j + 1) 0 =
      (⌊m⌋ : ℚ) + ((j : ℚ) + 1) * (bs : ℚ) := by
    rw [hedges, arith_getD _ _ _ _ (by omega)]
    push_cast
    ring
  refine ⟨⟨(binEdges records bs).getD j 0, (binEdges records bs).getD (j + 1) 0,
    (records.filter
      (fun r' => cutLabel (binEdges records bs) r'.timestamp_sec = some j)).length,
    ((records.filter
      (fun r' => cutLabel (binEdges records bs) r'.timestamp_sec = some j)).length : ℚ)
      / (bs : ℚ)⟩, ?_, ?_, ?_, ?_⟩
  · refine List.mem_filterMap.mpr ⟨j, List.mem_range.mpr (by omega), ?_⟩
    dsimp only
    rw [if_neg (by omega)]
  · exact ⟨j, hgd1⟩
  · rw [hgd1, hgd2]
    push_cast
    ring
  · rcases hmem with ⟨h1, h2⟩ | ⟨h1, h2⟩
    · exact Or.inl ⟨by rw [hgd1]; exact h1, by rw [hgd2]; exact h2⟩
    · subst h1
      refine Or.inr ⟨by rw [hgd1, h2]; simp, by rw [hgd1]; simp⟩

lemma sum_map_add {α : Type} (l : List α) (f g : α → ℕ) :
    (l.map (fun x => f x + g x)).sum = (l.map f).sum + (l.map g).sum := by
  induction l with
  | nil => simp
  | cons a l ih =>
    simp only [List.map_cons, List.sum_cons, ih]
    omega

lemma sum_indicator_range (j0 : ℕ) (p : ℕ → Prop) [DecidablePred p]
    (hp : ∀ j, p j ↔ j = j0) :
    ∀ mm : ℕ, j0 < mm →
      ((List.range mm).map (fun j => if p j then 1 else 0)).sum = 1 := by
  intro mm
  induction mm with
  | zero => omega
  | succ mm ih =>
    intro hj
    rw [List.range_succ, List.map_append, List.sum_append]
    by_cases h : j0 < mm
    · rw [ih h]
      have hne : ¬ p mm := by rw [hp]; omega
      simp [hne]
    · have hj0 : j0 = mm := by omega
      have hpmm : p mm := (hp mm).mpr hj0.symm
      have hzero : ((List.range mm).map (fun j => if p j then 1 else 0)).sum = 0 := by
        refine List.sum_eq_zero (fun x hx => ?_)
        rcases List.mem_map.mp hx with ⟨j, hjm, rfl⟩
        have : ¬ p j := by rw [hp]; have := List.mem_range.mp hjm; omega
        simp [this]
      rw [hzero]
      simp [hpmm]

lemma partition_sum (records : List ChatRecord) (lab : ChatRecord → Option ℕ)
    (mm : ℕ) (h : ∀ r ∈ records, ∃ j, lab r = some j ∧ j < mm) :
    ((List.range mm).map
      (fun j => (records.filter (fun r => lab r = some j)).length)).sum =
      records.length := by
  induction records with
  | nil => simp
  | cons r rs ih =>
    have hr := h r (List.mem_cons_self r rs)
    rcases hr with ⟨j0, hj0, hj0m⟩
    have hsplit : ∀ j : ℕ, ((r :: rs).filter (fun r' => lab r' = some j)).length =
        (if lab r = some j then 1 else 0) +
          (rs.filter (fun r' => lab r' = some j)).length := by
      intro j
      rw [List.filter_cons]
      by_cases hc : lab r = some j
      · simp [hc]
        omega
      · simp [hc]
    rw [List.map_congr_left (fun j _ => hsplit j), sum_map_add]
    rw [ih (fun r' hr' => h r' (List.mem_cons_of_mem r hr'))]
    have hind : ((List.range mm).map
        (fun j => if lab r = some j then 1 else 0)).sum = 1 := by
      refine sum_indicator_range j0 (fun j => lab r = some j) (fun j => ?_) mm hj0m
      constructor
      · intro hx
        rw [hj0] at hx
        exact (Option.some_inj.mp hx).symm
      · intro hx
        rw [hx, hj0]
    rw [hind]
    simp [Nat.add_comm]

lemma cutLabel_lt (edges : List ℚ) (t : ℚ) (j : ℕ)
    (h : cutLabel edges t = some j) : j + 1 < edges.length := by
  by_cases hcond : edges ≠ [] ∧ t = edges.getD 0 0
  · simp only [cutLabel, if_pos hcond] at h
    have hlen1 : 0 < edges.length := List.length_pos.mpr hcond.1
    by_cases hg : (1 : ℕ) = 0 ∨ 1 = edges.length
    · rw [if_pos hg] at h; cases h
    · rw [if_neg hg] at h
      injection h with hj
      push_neg at hg
      omega
  · simp only [cutLabel, if_neg hcond] at h
    have hsle : searchsortedLeft edges t ≤ edges.length := by
      rw [searchsortedLeft]
      exact List.length_filter_le _ _
    by_cases hg : searchsortedLeft edges t = 0 ∨
        searchsortedLeft edges t = edges.length
    · rw [if_pos hg] at h; cases h
    · rw [if_neg hg] at h
      injection h with hj
      push_neg at hg
      omega

lemma sum_counts_filterMap (l : List ℕ) (f : ℕ → Option TimeBin) (h : ℕ → ℕ)
    (hf : ∀ j ∈ l, (f j = none → h j = 0) ∧ ∀ b, f j = some b → b.count = h j) :
    ((l.filterMap f).map (·.count)).sum = (l.map h).sum := by
  induction l with
  | nil => simp
  | cons j l ih =>
    rw [List.map_cons, List.sum_cons]
    have hfj := hf j (List.mem_cons_self j l)
    have hih := ih (fun j' hj' => hf j' (List.mem_cons_of_mem j hj'))
    cases hc : f j with
    | none =>
      rw [List.filterMap_cons_none hc, hih, hfj.1 hc]
      omega
    | some b =>
      rw [List.filterMap_cons_some hc, List.map_cons, List.sum_cons, hih,
        hfj.2 b hc]

set_option maxHeartbeats 1000000 in
/-- C5 (amended): for every non-empty record set, every bin size > 0 and
`floor(min) < ceil(max)` (excluded degenerate case: all timestamps equal
to one integer, where `np.arange` yields a single edge, `pd.cut` labels
every record NaN and the output is empty), the bins produced by
`bin_comments_by_time` are sorted strictly ascending by start with
pairwise non-overlapping `[start, end)` ranges, every bin (the last
included) is exactly `binSize` wide, every bin has count > 0, and the
counts sum to exactly the number of input records. -/
theorem bin_comments_partition_invariants
    (records : List ChatRecord) (bs : ℤ) (hne : records ≠ []) (hbs : 0 < bs)
    (hlt : ⌊colMin (records.map (·.timestamp_sec))⌋ <
      ⌈colMax (records.map (·.timestamp_sec))⌉) :
    List.Pairwise (fun x y : TimeBin =>
      x.bin_start < y.bin_start ∧ x.bin_end ≤ y.bin_start)
      (bin_comments_by_time records bs) ∧
    (∀ b ∈ bin_comments_by_time records bs,
      b.bin_end = b.bin_start + (bs : ℚ)) ∧
    (∀ b ∈ bin_comments_by_time records bs, 0 < b.count) ∧
    ((bin_comments_by_time records bs).map (·.count)).sum = records.length := by
  have hstep : (0 : ℚ) < (bs : ℚ) := by exact_mod_cast hbs
  set m := colMin (records.map (·.timestamp_sec)) with hm
  set M := colMax (records.map (·.timestamp_sec)) with hM
  set nn := (⌈(((⌈M⌉ : ℚ) + (bs : ℚ)) - (⌊m⌋ : ℚ)) / (bs : ℚ)⌉).toNat with hnn
  obtain ⟨hn2, hlast⟩ := arange_count_facts m M bs hbs hlt
  rw [← hnn] at hn2 hlast
  have hedges : binEdges records bs =
      (List.range nn).map (fun (k : ℕ) => (⌊m⌋ : ℚ) + (k : ℚ) * (bs : ℚ)) := by
    rw [binEdges, arangeQ, ← hm, ← hM, ← hnn]
  have hlen : (binEdges records bs).length = nn := by rw [hedges]; simp
  have htotal : ∀ r ∈ records, ∃ j,
      cutLabel (binEdges records bs) r.timestamp_sec = some j ∧ j < nn - 1 := by
    intro r hr
    have htmem : r.timestamp_sec ∈ records.map (·.timestamp_sec) :=
      List.mem_map.mpr ⟨r, hr, rfl⟩
    have hta : (⌊m⌋ : ℚ) ≤ r.timestamp_sec :=
      le_trans (Int.floor_le _) (colMin_le_mem _ _ htmem)
    have htb : r.timestamp_sec ≤ (⌊m⌋ : ℚ) + ((nn : ℚ) - 1) * (bs : ℚ) :=
      le_trans (le_trans (mem_le_colMax _ _ htmem) (Int.le_ceil _)) hlast
    obtain ⟨j, hj, hjn, _⟩ := cutLabel_arith_spec
      (⌊m⌋ : ℚ) (bs : ℚ) r.timestamp_sec hstep nn hn2 hta htb
    rw [← hedges] at hj
    exact ⟨j, hj, by omega⟩
  have hinv : ∀ (j : ℕ) (b : TimeBin),
      (if (records.filter (fun r =>
          cutLabel (binEdges records bs) r.timestamp_sec = some j)).length = 0
        then none
        else some (TimeBin.mk ((binEdges records bs).getD j 0)
          ((binEdges records bs).getD (j + 1) 0)
          ((records.filter (fun r =>
            cutLabel (binEdges records bs) r.timestamp_sec = some j)).length)
          (((records.filter (fun r =>
            cutLabel (binEdges records bs) r.timestamp_sec = some j)).length : ℚ)
            / (bs : ℚ)))) = some b →
      j + 1 < nn ∧
      b = TimeBin.mk ((⌊m⌋ : ℚ) + (j : ℚ) * (bs : ℚ))
        ((⌊m⌋ : ℚ) + ((j : ℚ) + 1) * (bs : ℚ))
        ((records.filter (fun r =>
          cutLabel (binEdges records bs) r.timestamp_sec = some j)).length)
        (((records.filter (fun r =>
          cutLabel (binEdges records bs) r.timestamp_sec = some j)).length : ℚ)
          / (bs : ℚ)) ∧
      0 < (records.filter (fun r =>
        cutLabel (binEdges records bs) r.timestamp_sec = some j)).length := by
    intro j b hfj
    by_cases hc : (records.filter (fun r =>
        cutLabel (binEdges records bs) r.timestamp_sec = some j)).length = 0
    · rw [if_pos hc] at hfj; cases hfj
    · rw [if_neg hc] at hfj
      obtain ⟨r, hrf⟩ := List.exists_mem_of_length_pos (Nat.pos_of_ne_zero hc)
      have hrl : cutLabel (binEdges records bs) r.timestamp_sec = some j := by
        have := (List.mem_filter.mp hrf).2
        simpa using this
      have hjlt : j + 1 < nn := by
        have := cutLabel_lt _ _ _ hrl
        omega
      have hgd1 : (binEdges records bs).getD j 0 =
          (⌊m⌋ : ℚ) + (j : ℚ) * (bs : ℚ) := by
        rw [hedges, arith_getD _ _ _ _ (by omega)]
      have hgd2 : (binEdges records bs).getD (j + 1) 0 =
          (⌊m⌋ : ℚ) + ((j : ℚ) + 1) * (bs : ℚ) := by
        rw [hedges, arith_getD _ _ _ _ (by omega)]
        push_cast
        ring
      injection hfj with hb
      subst hb
      exact ⟨hjlt, by rw [hgd1, hgd2], Nat.pos_of_ne_zero hc⟩
  rw [bin_comments_by_time_ne_nil records bs hne, hlen]
  refine ⟨?_, ?_, ?_, ?_⟩
  · refine List.Pairwise.filterMap _ ?_ (List.pairwise_lt_range _)
    intro i i' hii b hb b' hb'
    rw [Option.mem_def] at hb hb'
    obtain ⟨hi, hbeq, -⟩ := hinv i b hb
    obtain ⟨hi', hbeq', -⟩ := hinv i' b' hb'
    subst hbeq
    subst hbeq'
    have hii' : (i : ℚ) < (i' : ℚ) := by exact_mod_cast hii
    have hii1 : ((i : ℚ) + 1) ≤ (i' : ℚ) := by
      have : (i : ℤ) + 1 ≤ (i' : ℤ) := by exact_mod_cast hii
      exact_mod_cast this
    constructor
    · dsimp only
      have := mul_lt_mul_of_pos_right hii' hstep
      linarith
    · dsimp only
      have := mul_le_mul_of_nonneg_right hii1 (le_of_lt hstep)
      linarith
  · intro b hb
    obtain ⟨j, hjr, hfj⟩ := List.mem_filterMap.mp hb
    obtain ⟨hjlt, hbeq, -⟩ := hinv j b hfj
    subst hbeq
    dsimp only
    ring
  · intro b hb
    obtain ⟨j, hjr, hfj⟩ := List.mem_filterMap.mp hb
    obtain ⟨hjlt, hbeq, hpos⟩ := hinv j b hfj
    subst hbeq
    exact hpos
  · rw [sum_counts_filterMap _ _
      (fun j => (records.filter (fun r =>
        cutLabel (binEdges records bs) r.timestamp_sec = some j)).length)
      (fun j _ => ⟨fun hnone => ?_, fun b hfj => ?_⟩)]
    · exact partition_sum records
        (fun r => cutLabel (binEdges records bs) r.timestamp_sec) (nn - 1) htotal
    · by_cases hc : (records.filter (fun r =>
          cutLabel (binEdges records bs) r.timestamp_sec = some j)).length = 0
      · exact hc
      · rw [if_neg hc] at hnone; cases hnone
    · obtain ⟨-, hbeq, -⟩ := hinv j b hfj
      subst hbeq
      rfl

lemma binEdges_c1 : binEdges c1Records 30 = [10, 40, 70] := by
  have hmin : colMin (c1Records.map (·.timestamp_sec)) = 10 := by
    norm_num [colMin, c1Records, min_def]
  have hmax : colMax (c1Records.map (·.timestamp_sec)) = 70 := by
    norm_num [colMax, c1Records, max_def]
  have hfloor : (⌊(10:ℚ)⌋ : ℤ) = 10 := by rw [Int.floor_eq_iff]; norm_num
  have hceil : (⌈(70:ℚ)⌉ : ℤ) = 70 := by rw [Int.ceil_eq_iff]; norm_num
  rw [binEdges, hmin, hmax, hfloor, hceil, arangeQ]
  push_cast
  rw [show ((70:ℚ) + 30 - 10) / 30 = 3 by norm_num]
  rw [show (⌈(3:ℚ)⌉ : ℤ) = 3 by rw [Int.ceil_eq_iff]; norm_num]
  rw [show ((3:ℤ).toNat) = 3 from rfl]
  norm_num [List.range_succ]

lemma binned_c1 : bin_comments_by_time c1Records 30 =
    [⟨10, 40, 2, 1/15⟩, ⟨40, 70, 1, 1/30⟩] := by
  rw [bin_comments_by_time_ne_nil c1Records 30 (by simp [c1Records])]
  rw [binEdges_c1]
  norm_num [c1Records, cutLabel, searchsortedLeft, List.getD_cons_zero,
    List.getD_cons_succ, List.range_succ, List.filterMap_cons, List.filter_cons,
    List.cons_ne_nil]

/-- C1 (counterexample): comments at t = {10, 40, 70} with bin size 30.
Under the claim's left-closed placement, the record at the interior bin
boundary t = 40 is counted in the bin that starts at 40, which — being
the final bin, closed on the right — would also hold the maximum t = 70:
two records.  The code counts only one record there (t = 70): `pd.cut`'s
right-closed intervals put the boundary record t = 40 into the earlier
bin (10, 40]. -/
theorem bin_boundary_record_counted_left_cex :
    bin_comments_by_time c1Records 30 =
      [⟨10, 40, 2, 1/15⟩, ⟨40, 70, 1, 1/30⟩] ∧
    (c1Records.filter (fun r =>
      40 ≤ r.timestamp_sec ∧ r.timestamp_sec ≤ 70)).length = 2 := by
  refine ⟨binned_c1, ?_⟩
  norm_num [c1Records, List.filter_cons]

theorem bin_comments_right_closed_placement_witness :
    ∃ bin ∈ bin_comments_by_time c1Records 30,
      (∃ k : ℕ, bin.bin_start =
        (⌊colMin (c1Records.map (·.timestamp_sec))⌋ : ℚ) +
          (k : ℚ) * ((30 : ℤ) : ℚ)) ∧
      bin.bin_end = bin.bin_start + ((30 : ℤ) : ℚ) ∧
      ((bin.bin_start < (10 : ℚ) ∧ (10 : ℚ) ≤ bin.bin_end) ∨
        ((10 : ℚ) = bin.bin_start ∧
          bin.bin_start = (⌊colMin (c1Records.map (·.timestamp_sec))⌋ : ℚ))) :=
  bin_comments_right_closed_placement c1Records 30 (by simp [c1Records])
    (by norm_num)
    (by
      have h1 : colMin (c1Records.map (·.timestamp_sec)) = 10 := by
        norm_num [colMin, c1Records, min_def]
      have h2 : colMax (c1Records.map (·.timestamp_sec)) = 70 := by
        norm_num [colMax, c1Records, max_def]
      rw [h1, h2]
      rw [show (⌊(10:ℚ)⌋ : ℤ) = 10 by rw [Int.floor_eq_iff]; norm_num]
      rw [show (⌈(70:ℚ)⌉ : ℤ) = 70 by rw [Int.ceil_eq_iff]; norm_num]
      norm_num)
    ⟨10, "u1", some "a"⟩ (by simp [c1Records])

lemma binEdges_c5 : binEdges c5Records 10 = [10] := by
  have hmin : colMin (c5Records.map (·.timestamp_sec)) = 10 := by
    norm_num [colMin, c5Records]
  have hmax : colMax (c5Records.map (·.timestamp_sec)) = 10 := by
    norm_num [colMax, c5Records]
  have hfloor : (⌊(10:ℚ)⌋ : ℤ) = 10 := by rw [Int.floor_eq_iff]; norm_num
  have hceil : (⌈(10:ℚ)⌉ : ℤ) = 10 := by rw [Int.ceil_eq_iff]; norm_num
  rw [binEdges, hmin, hmax, hfloor, hceil, arangeQ]
  push_cast
  rw [show ((10:ℚ) + 10 - 10) / 10 = 1 by norm_num]
  rw [show (⌈(1:ℚ)⌉ : ℤ) = 1 by rw [Int.ceil_eq_iff]; norm_num]
  rw [show ((1:ℤ).toNat) = 1 from rfl]
  norm_num [List.range_succ]

/-- C5 (counterexample): a single comment at the integer timestamp 10,
bin size 10.  `np.arange(floor(10), ceil(10)+10, 10)` yields the single
edge [10], `pd.cut` over one edge labels the record NaN, `groupby` drops
it, and `bin_comments_by_time` returns an empty frame: the bins' counts
sum to 0, not to the input record count 1. -/
theorem single_integer_timestamp_lost_cex :
    bin_comments_by_time c5Records 10 = [] ∧
    ((bin_comments_by_time c5Records 10).map (·.count)).sum = 0 ∧
    c5Records.length = 1 := by
  have h : bin_comments_by_time c5Records 10 = [] := by
    rw [bin_comments_by_time_ne_nil c5Records 10 (by simp [c5Records])]
    rw [binEdges_c5]
    norm_num
  exact ⟨h, by rw [h]; rfl, rfl⟩

theorem bin_comments_partition_invariants_witness :
    ((bin_comments_by_time c2Records 30).map (·.count)).sum =
      c2Records.length :=
  (bin_comments_partition_invariants c2Records 30 (by simp [c2Records])
    (by norm_num)
    (by
      have h1 : colMin (c2Records.map (·.timestamp_sec)) = 10 := by
        norm_num [colMin, c2Records, min_def]
      have h2 : colMax (c2Records.map (·.timestamp_sec)) = 110 := by
        norm_num [colMax, c2Records, max_def]
      rw [h1, h2]
      rw [show (⌊(10:ℚ)⌋ : ℤ) = 10 by rw [Int.floor_eq_iff]; norm_num]
      rw [show (⌈(110:ℚ)⌉ : ℤ) = 110 by rw [Int.ceil_eq_iff]; norm_num]
      norm_num)).2.2.2
